import Mathlib

/-!
Shallow embedding of the subtitle-processing core of the `mcp-youtube`
server (`SubtitleProcessor` and the surrounding pure helpers in
`src/index.ts`).  Strings are modelled as `List Char`; the JavaScript
regex-based `String.replace` calls are modelled by explicit left-to-right
scanners that mirror the semantics of a global regex replace: at each
position try to match, on success skip the matched text and continue
after it (no rescanning of the produced text), on failure emit the
character and advance by one.
-/

/-- The JavaScript whitespace class `\s` (also used by `String.trim`):
space, tab, line feed, vertical tab, form feed, carriage return, and the
Unicode space separators recognised by ECMAScript. -/
def isWs (c : Char) : Bool :=
  c = ' ' || c = '\t' || c = '\n' || c = '\r' ||
  c.toNat = 11 || c.toNat = 12 || c.toNat = 160 || c.toNat = 5760 ||
  (8192 ≤ c.toNat && c.toNat ≤ 8202) ||
  c.toNat = 8232 || c.toNat = 8233 || c.toNat = 8239 || c.toNat = 8287 ||
  c.toNat = 12288 || c.toNat = 65279

/-- Drop leading JavaScript whitespace. -/
def trimLeft (l : List Char) : List Char := l.dropWhile isWs

/-- Drop trailing JavaScript whitespace. -/
def trimRight (l : List Char) : List Char := (l.reverse.dropWhile isWs).reverse

/-- Model of JavaScript `String.prototype.trim`. -/
def trimL (l : List Char) : List Char := trimRight (trimLeft l)

/-- Model of JavaScript `text.split('\n')`: split at every line feed;
the empty string yields one empty field. -/
def splitLines : List Char → List (List Char)
  | [] => [[]]
  | c :: cs =>
    if c = '\n' then [] :: splitLines cs
    else
      match splitLines cs with
      | [] => [[c]]
      | l :: ls => (c :: l) :: ls

/-- Model of JavaScript `array.join('\n')`. -/
def joinLines : List (List Char) → List Char
  | [] => []
  | [l] => l
  | l :: ls => l ++ '\n' :: joinLines ls

/-- Model of JavaScript `array.join(sep)` for an arbitrary separator. -/
def joinWith (sep : List Char) : List (List Char) → List Char
  | [] => []
  | [l] => l
  | l :: ls => l ++ sep ++ joinWith sep ls

/-- One step of the left-to-right scanner for
`text.replace(/<[^>]+>/g, '')` (the first rule of
`SubtitleProcessor.cleanText`).  The first argument is the buffer of
characters read since an unresolved `<` (empty when not inside a
candidate tag); a candidate is discarded when a `>` arrives and the
buffer holds the `<` plus at least one non-`>` character, exactly when
the regex `<[^>]+>` matches there. -/
def rtGo : List Char → List Char → List Char
  | buf, [] => buf
  | buf, c :: cs =>
    if buf = [] then
      if c = '<' then rtGo ['<'] cs else c :: rtGo [] cs
    else if c = '>' then
      if 2 ≤ buf.length then rtGo [] cs else buf ++ '>' :: rtGo [] cs
    else rtGo (buf ++ [c]) cs

/-- Model of `text.replace(/<[^>]+>/g, '')` from
`SubtitleProcessor.cleanText`. -/
def removeTags (l : List Char) : List Char := rtGo [] l

/-- Match a literal pattern (first argument) at the head of a list,
returning the remainder after the pattern on success. -/
def strAt : List Char → List Char → Option (List Char)
  | [], l => some l
  | _ :: _, [] => none
  | p :: ps, c :: cs => if c = p then strAt ps cs else none

/-- The literal positioning-metadata token removed by
`SubtitleProcessor.cleanText`, i.e. the characters of
`align:start position:0%`. -/
def alignTok : List Char :=
  ['a', 'l', 'i', 'g', 'n', ':', 's', 't', 'a', 'r', 't', ' ',
   'p', 'o', 's', 'i', 't', 'i', 'o', 'n', ':', '0', '%']

/-- Fuelled scanner for `text.replace(/align:start position:0%/g, '')`:
at each position, if the literal token starts here skip it, otherwise
keep the character.  One unit of fuel is spent per step and every step
consumes at least one input character, so fuel equal to the input length
(as supplied by `removeAlign`) never runs out. -/
def raGo : Nat → List Char → List Char
  | _, [] => []
  | 0, l => l
  | f + 1, c :: cs =>
    match strAt alignTok (c :: cs) with
    | some rest => raGo f rest
    | none => c :: raGo f cs

/-- Model of `text.replace(/align:start position:0%/g, '')` from
`SubtitleProcessor.cleanText`. -/
def removeAlign (l : List Char) : List Char := raGo l.length l

/-- Scanner for `text.replace(/\s+/g, ' ')`: each maximal whitespace run
is replaced by a single space.  The flag records whether the scanner is
inside a run whose space has already been emitted. -/
def cwGo : Bool → List Char → List Char
  | _, [] => []
  | inRun, c :: cs =>
    if isWs c then
      if inRun then cwGo true cs else ' ' :: cwGo true cs
    else c :: cwGo false cs

/-- Model of `text.replace(/\s+/g, ' ')` from
`SubtitleProcessor.cleanText`. -/
def collapseWs (l : List Char) : List Char := cwGo false l

/-- Model of `SubtitleProcessor.cleanText`: remove `<...>` markup tags,
remove the literal `align:start position:0%` token, collapse whitespace
runs to one space, and trim. -/
def cleanText (l : List Char) : List Char :=
  trimL (collapseWs (removeAlign (removeTags l)))

/-- Consume exactly `n` decimal digits (the regex `\d{n}`). -/
def digitsAt : Nat → List Char → Option (List Char)
  | 0, l => some l
  | _ + 1, [] => none
  | n + 1, c :: cs => if c.isDigit then digitsAt n cs else none

/-- Consume one expected literal character. -/
def charAt (ch : Char) : List Char → Option (List Char)
  | [] => none
  | c :: cs => if c = ch then some cs else none

/-- Consume the shape `\d{2}:\d{2}:\d{2}\.\d{3}` of one timestamp. -/
def matchTsCore (l : List Char) : Option (List Char) :=
  ((((((digitsAt 2 l).bind (charAt ':')).bind (digitsAt 2)).bind
    (charAt ':')).bind (digitsAt 2)).bind (charAt '.')).bind (digitsAt 3)

/-- Model of `CONSTANTS.TIMESTAMP_REGEX.test(line)`: the regex
`^\d{2}:\d{2}:\d{2}\.\d{3} --> \d{2}:\d{2}:\d{2}\.\d{3}` is anchored at
the start only, so this tests whether the line starts with the
timestamp-range shape. -/
def isTsLine (l : List Char) : Bool :=
  (((matchTsCore l).bind (strAt [' ', '-', '-', '>', ' '])).bind
    matchTsCore).isSome

/-- Model of `line.split(' -->')[0]`: the characters before the first
occurrence of the literal `" -->"` (the whole line when absent). -/
def beforeArrow : List Char → List Char
  | [] => []
  | c :: cs =>
    if (strAt [' ', '-', '-', '>'] (c :: cs)).isSome then []
    else c :: beforeArrow cs

/-- One emitted transcript line of `SubtitleProcessor.processSubtitles`:
a start timestamp and the cleaned caption text, rendered as
`"[timestamp] text"`. -/
structure TranscriptLine where
  timestamp : List Char
  text : List Char
deriving DecidableEq

/-- The loop of `SubtitleProcessor.processSubtitles`: the state is the
current timestamp and the previously emitted cleaned text (both
initially empty). -/
def psGo : List Char → List Char → List (List Char) → List TranscriptLine
  | _, _, [] => []
  | ts, prev, line :: ls =>
    if trimL line = [] then psGo ts prev ls
    else if isTsLine (trimL line) then
      psGo (beforeArrow (trimL line)) prev ls
    else if cleanText (trimL line) ≠ [] ∧ cleanText (trimL line) ≠ prev then
      ⟨ts, cleanText (trimL line)⟩ :: psGo ts (cleanText (trimL line)) ls
    else psGo ts prev ls

/-- The transcript lines emitted by `SubtitleProcessor.processSubtitles`
on the given raw caption-file content. -/
def transcriptLines (content : List Char) : List TranscriptLine :=
  psGo [] [] (splitLines content)

/-- Rendering of one transcript line: `` `[${currentTimestamp}] ${cleanedText}` ``. -/
def renderLine (tl : TranscriptLine) : List Char :=
  '[' :: (tl.timestamp ++ ']' :: ' ' :: tl.text)

/-- Model of `SubtitleProcessor.processSubtitles`: emitted transcript
lines, rendered and joined by newline. -/
def processSubtitles (content : List Char) : List Char :=
  joinLines ((transcriptLines content).map renderLine)

/-- Consume the 14-character shape `\[\d{2}:\d{2}:\d{2}\.\d{3}\]` of one
bracketed timestamp token (the regex of `countWords`). -/
def tsTok (l : List Char) : Option (List Char) :=
  ((charAt '[' l).bind matchTsCore).bind (charAt ']')

/-- Fuelled scanner for
`line.replace(/\[\d{2}:\d{2}:\d{2}\.\d{3}\]/g, '')` inside
`countWords`; fuel equal to the input length (as supplied by
`removeTs`) never runs out since every step consumes at least one
character. -/
def rTsGo : Nat → List Char → List Char
  | _, [] => []
  | 0, l => l
  | f + 1, c :: cs =>
    match tsTok (c :: cs) with
    | some rest => rTsGo f rest
    | none => c :: rTsGo f cs

/-- Model of `line.replace(/\[\d{2}:\d{2}:\d{2}\.\d{3}\]/g, '')` from
`countWords`. -/
def removeTs (l : List Char) : List Char := rTsGo l.length l

/-- Number of maximal non-whitespace runs; the flag records whether the
scanner is inside a word already counted. -/
def nwGo : Bool → List Char → Nat
  | _, [] => 0
  | inW, c :: cs =>
    if isWs c then nwGo false cs
    else (if inW then 0 else 1) + nwGo true cs

/-- Model of `countWords` from `SubtitleProcessor.splitIntoChunks`:
`textOnly.trim().split(/\s+/).length` where `textOnly` is the line with
all bracketed timestamp tokens removed.  In JavaScript splitting the
empty string yields `[""]`, so an empty or all-whitespace remainder
counts as one word. -/
def countWords (line : List Char) : Nat :=
  if trimL (removeTs line) = [] then 1 else nwGo false (trimL (removeTs line))

/-- The loop of `SubtitleProcessor.splitIntoChunks`: `cur` is the chunk
under construction (its lines in order), `cnt` its running word count.
A chunk is closed before adding a line exactly when it is nonempty and
the line's word count would push the running count over the limit. -/
def chunksGo (limit : Int) : List (List Char) → Nat → List (List Char) →
    List (List (List Char))
  | cur, _, [] => if cur = [] then [] else [cur]
  | cur, cnt, line :: ls =>
    if limit < (cnt : Int) + (countWords line : Int) ∧ cur ≠ [] then
      cur :: chunksGo limit [line] (countWords line) ls
    else chunksGo limit (cur ++ [line]) (cnt + countWords line) ls

/-- The chunks of `SubtitleProcessor.splitIntoChunks` as lists of lines
(before each chunk is joined by newline). -/
def chunkLinesOf (text : List Char) (limit : Int) : List (List (List Char)) :=
  chunksGo limit [] 0 (splitLines text)

/-- Model of `SubtitleProcessor.splitIntoChunks`: each chunk's lines
joined by newline. -/
def splitIntoChunks (text : List Char) (limit : Int) : List (List Char) :=
  (chunkLinesOf text limit).map joinLines

/-- Total word count of a chunk, line word counts as in `countWords`. -/
def chunkWords (c : List (List Char)) : Nat := (c.map countWords).sum

/-- The raw options bag of the tool request: the three numeric
parameters read by `SubtitleProcessor.validateConfig` (`chunkSize`,
`chunkIndex` and `chunks`), each possibly absent. -/
structure ToolArgs where
  chunkSize : Option Int
  chunkIndex : Option Int
  chunks : Option Int

/-- The resolved configuration (`SubtitleConfig` in the source). -/
structure SubtitleConfig where
  chunkSize : Int
  chunkIndex : Int
  numChunks : Int
deriving DecidableEq

/-- Model of `SubtitleProcessor.validateConfig`: clamp `chunkSize` into
`[5000, 20000]` (default 5000), default `chunkIndex` to 0 without
clamping, and cap `numChunks` at 5 (default 1, no lower clamp). -/
def validateConfig (args : ToolArgs) : SubtitleConfig :=
  { chunkSize := min (max (args.chunkSize.getD 5000) 5000) 20000
    chunkIndex := args.chunkIndex.getD 0
    numChunks := min (args.chunks.getD 1) 5 }

/-- Decimal rendering of an integer, as JavaScript template literals
render numbers. -/
def intToChars (i : Int) : List Char := (toString i).data

/-- Rendering of one selected chunk inside `formatResponse`:
`` `[Chunk ${config.chunkIndex + idx + 1}/${totalChunks}]\n${chunk}\n` ``. -/
def chunkLabel (chunkIndex : Int) (totalChunks : Int) (idx : Nat)
    (chunk : List Char) : List Char :=
  "[Chunk ".data ++ intToChars (chunkIndex + idx + 1) ++ "/".data ++
    intToChars totalChunks ++ "]\n".data ++ chunk ++ "\n".data

/-- The success output of `formatResponse`: the configuration summary
block followed by the selected chunks joined by the divider line. -/
def renderReport (config : SubtitleConfig) (totalChunks : Int)
    (selected : List (List Char)) : List Char :=
  "Configuration:\n- Chunk size: ".data ++ intToChars config.chunkSize ++
    " words\n- Starting chunk: ".data ++ intToChars (config.chunkIndex + 1) ++
    "\n- Chunks requested: ".data ++ intToChars config.numChunks ++
    "\n- Total available chunks: ".data ++ intToChars totalChunks ++
    "\n=====================\n\n".data ++
    joinWith "\n=====================\n".data
      (selected.mapIdx fun idx chunk =>
        chunkLabel config.chunkIndex totalChunks idx chunk)

/-- Model of `formatResponse`: throw `Invalid chunk index. Available
chunks: 0-${totalChunks - 1}` when `chunkIndex` is outside
`[0, totalChunks)`, otherwise render the slice
`chunks.slice(chunkIndex, min(chunkIndex + numChunks, totalChunks))`. -/
def formatResponse (config : SubtitleConfig) (chunks : List (List Char)) :
    Except (List Char) (List Char) :=
  if config.chunkIndex < 0 ∨ (chunks.length : Int) ≤ config.chunkIndex then
    Except.error ("Invalid chunk index. Available chunks: 0-".data ++
      intToChars ((chunks.length : Int) - 1))
  else
    Except.ok (renderReport config (chunks.length : Int)
      ((chunks.drop config.chunkIndex.toNat).take
        ((min (config.chunkIndex + config.numChunks) (chunks.length : Int) -
          config.chunkIndex).toNat)))

/-- Word count of a line following the spec's words for the Chunker
(4.3): strip a leading `[HH:MM:SS.mmm]`-shaped timestamp token, then
split the remainder on whitespace runs.  This differs from the code's
`countWords`, which removes every such token anywhere in the line; it
exists only to compare the spec's description against the code. -/
def specLineWords (line : List Char) : Nat :=
  nwGo false (match tsTok line with | some rest => rest | none => line)

/-- Total word count of a chunk under the spec's `specLineWords`. -/
def specChunkWords (c : List (List Char)) : Nat :=
  (c.map specLineWords).sum

/-- Whether a character list contains a `>`. -/
def hasGt : List Char → Bool
  | [] => false
  | c :: cs => c = '>' || hasGt cs

/-- Whether the head of a character list is `>`. -/
def headGt : List Char → Bool
  | [] => false
  | c :: _ => c = '>'

/-- Invariant of tag removal: every `<` is immediately followed by a `>`
or has no `>` anywhere after it.  A list satisfying this contains no
match of the tag regex `<[^>]+>`. -/
def ltInv : List Char → Bool
  | [] => true
  | c :: cs => (if c = '<' then headGt cs || !hasGt cs else true) && ltInv cs

/-- Whether the head of a character list exists and is not whitespace. -/
def headNonWs : List Char → Bool
  | [] => false
  | c :: _ => !isWs c

/-- Whitespace normal form: every whitespace character is a single space
followed by a non-whitespace character.  Such a list is unchanged by
whitespace collapsing, has no trailing whitespace, and has no two
adjacent whitespace characters. -/
def wsNorm : List Char → Bool
  | [] => true
  | c :: cs => (if isWs c then c = ' ' && headNonWs cs else true) && wsNorm cs

/-- Weak whitespace normal form as produced by `collapseWs`: every
whitespace character is a single space followed by a non-whitespace
character or by the end of the list. -/
def wsOkT : List Char → Bool
  | [] => true
  | c :: cs =>
    (if isWs c then c = ' ' && (headNonWs cs || cs.isEmpty) else true) && wsOkT cs

/-- Whether the literal token `align:start position:0%` occurs as a
contiguous substring. -/
def occursTok : List Char → Bool
  | [] => false
  | c :: cs => (strAt alignTok (c :: cs)).isSome || occursTok cs

theorem splitLines_ne_nil (l : List Char) : splitLines l ≠ [] := by
  induction l with
  | nil => simp [splitLines]
  | cons c cs ih =>
    simp only [splitLines]
    split
    · simp
    · cases h : splitLines cs <;> simp

theorem joinLines_cons_cons (a b : List Char) (ls : List (List Char)) :
    joinLines (a :: b :: ls) = a ++ '\n' :: joinLines (b :: ls) := rfl

theorem joinLines_splitLines (l : List Char) : joinLines (splitLines l) = l := by
  induction l with
  | nil => rfl
  | cons c cs ih =>
    simp only [splitLines]
    split
    · rename_i hc
      cases h : splitLines cs with
      | nil => exact absurd h (splitLines_ne_nil cs)
      | cons x xs =>
        rw [h] at ih
        rw [joinLines_cons_cons, hc]
        simpa using ih
    · cases h : splitLines cs with
      | nil => exact absurd h (splitLines_ne_nil cs)
      | cons x xs =>
        rw [h] at ih
        cases xs with
        | nil => simpa [joinLines] using ih
        | cons y ys =>
          rw [joinLines_cons_cons]
          rw [joinLines_cons_cons] at ih
          simpa using ih

theorem dropWhile_headI (p : Char → Bool) (l : List Char) :
    l.dropWhile p = [] ∨ p ((l.dropWhile p).headI) = false := by
  induction l with
  | nil => left; rfl
  | cons c cs ih =>
    by_cases h : p c
    · simpa [List.dropWhile_cons, h] using ih
    · right
      simp [List.dropWhile_cons, h]

theorem trimRight_decomp (l : List Char) :
    ∃ r, l = trimRight l ++ r ∧ ∀ c ∈ r, isWs c = true := by
  refine ⟨(l.reverse.takeWhile isWs).reverse, ?_, ?_⟩
  · rw [trimRight, ← List.reverse_append, List.takeWhile_append_dropWhile,
      List.reverse_reverse]
  · intro c hc
    exact List.mem_takeWhile_imp (by simpa using hc)

theorem trimRight_last (l : List Char) :
    trimRight l = [] ∨ isWs ((trimRight l).reverse.headI) = false := by
  rcases dropWhile_headI isWs l.reverse with h | h
  · left; simp [trimRight, h]
  · right; simpa [trimRight] using h

theorem trimRight_headI (l : List Char) (h : trimRight l ≠ []) :
    (trimRight l).headI = l.headI := by
  obtain ⟨r, hr, -⟩ := trimRight_decomp l
  conv_rhs => rw [hr]
  cases h' : trimRight l with
  | nil => exact absurd h' h
  | cons x xs => simp [h']

theorem trimL_head (l : List Char) :
    trimL l = [] ∨ isWs ((trimL l).headI) = false := by
  unfold trimL
  by_cases h : trimRight (trimLeft l) = []
  · left; exact h
  · right
    rw [trimRight_headI _ h]
    rcases dropWhile_headI isWs l with h' | h'
    · exact absurd (by simp [trimRight, trimLeft, h']) h
    · exact h'

theorem trimL_last (l : List Char) :
    trimL l = [] ∨ isWs ((trimL l).reverse.headI) = false :=
  trimRight_last (trimLeft l)

theorem dropWhile_all (p : Char → Bool) (l : List Char)
    (h : ∀ c ∈ l, p c = true) : l.dropWhile p = [] := by
  induction l with
  | nil => rfl
  | cons c cs ih =>
    rw [List.dropWhile_cons, if_pos (h c (by simp))]
    exact ih fun c hc => h c (by simp [hc])

theorem trimL_all_ws (l : List Char) (h : ∀ c ∈ l, isWs c = true) :
    trimL l = [] := by
  unfold trimL trimLeft
  rw [dropWhile_all isWs l h]
  rfl

theorem charAt_suffix (ch : Char) (l r : List Char) (h : charAt ch l = some r) :
    r <:+ l := by
  cases l with
  | nil => simp [charAt] at h
  | cons c cs =>
    by_cases hc : c = ch
    · simp only [charAt, if_pos hc, Option.some.injEq] at h
      exact h ▸ List.suffix_cons c cs
    · simp [charAt, if_neg hc] at h

theorem digitsAt_suffix (n : Nat) (l r : List Char)
    (h : digitsAt n l = some r) : r <:+ l := by
  induction n generalizing l with
  | zero =>
    unfold digitsAt at h
    cases h
    exact List.suffix_rfl
  | succ n ih =>
    cases l with
    | nil => simp [digitsAt] at h
    | cons c cs =>
      unfold digitsAt at h
      split at h
      · exact (ih cs h).trans (List.suffix_cons c cs)
      · cases h

theorem strAt_suffix (p : List Char) (l r : List Char)
    (h : strAt p l = some r) : r <:+ l := by
  induction p generalizing l with
  | nil =>
    unfold strAt at h
    cases h
    exact List.suffix_rfl
  | cons x xs ih =>
    cases l with
    | nil => simp [strAt] at h
    | cons c cs =>
      unfold strAt at h
      split at h
      · exact (ih cs h).trans (List.suffix_cons c cs)
      · cases h

theorem bind_suffix {f : List Char → Option (List Char)}
    (hf : ∀ l r, f l = some r → r <:+ l) (o : Option (List Char))
    (l r : List Char) (ho : ∀ m, o = some m → m <:+ l)
    (h : o.bind f = some r) : r <:+ l := by
  cases o with
  | none => simp at h
  | some m => exact (hf m r (by simpa using h)).trans (ho m rfl)

theorem matchTsCore_suffix (l r : List Char) (h : matchTsCore l = some r) :
    r <:+ l := by
  unfold matchTsCore at h
  refine bind_suffix (digitsAt_suffix 3) _ l r (fun m1 hm1 => ?_) h
  refine bind_suffix (charAt_suffix '.') _ l m1 (fun m2 hm2 => ?_) hm1
  refine bind_suffix (digitsAt_suffix 2) _ l m2 (fun m3 hm3 => ?_) hm2
  refine bind_suffix (charAt_suffix ':') _ l m3 (fun m4 hm4 => ?_) hm3
  refine bind_suffix (digitsAt_suffix 2) _ l m4 (fun m5 hm5 => ?_) hm4
  refine bind_suffix (charAt_suffix ':') _ l m5 (fun m6 hm6 => ?_) hm5
  exact digitsAt_suffix 2 l m6 hm6

theorem tsTok_suffix (l r : List Char) (h : tsTok l = some r) : r <:+ l := by
  unfold tsTok at h
  refine bind_suffix (charAt_suffix ']') _ l r (fun m1 hm1 => ?_) h
  refine bind_suffix matchTsCore_suffix _ l m1 (fun m2 hm2 => ?_) hm1
  exact charAt_suffix '[' l m2 hm2

theorem rTsGo_mem (f : Nat) (l : List Char) (c : Char)
    (h : c ∈ rTsGo f l) : c ∈ l := by
  induction f generalizing l with
  | zero =>
    cases l with
    | nil => simp [rTsGo] at h
    | cons x xs => simpa [rTsGo] using h
  | succ f ih =>
    cases l with
    | nil => simp [rTsGo] at h
    | cons x xs =>
      rw [rTsGo] at h
      rcases h' : tsTok (x :: xs) with - | rest
      · rw [h'] at h
        rcases List.mem_cons.mp h with h | h
        · simp [h]
        · exact List.mem_cons_of_mem _ (ih _ h)
      · rw [h'] at h
        exact (tsTok_suffix _ _ h').mem (ih _ h)

theorem removeTs_mem (l : List Char) (c : Char) (h : c ∈ removeTs l) :
    c ∈ l := rTsGo_mem _ _ _ h

theorem countWords_pos (line : List Char) : 1 ≤ countWords line := by
  unfold countWords
  split
  · exact le_refl 1
  · rename_i h
    rcases trimL_head (removeTs line) with h' | h'
    · exact absurd h' h
    · cases ht : trimL (removeTs line) with
      | nil => exact absurd ht h
      | cons c cs =>
        rw [ht] at h'
        simp only [List.headI] at h'
        simp [nwGo, h']

theorem countWords_all_ws (line : List Char)
    (h : ∀ c ∈ removeTs line, isWs c = true) : countWords line = 1 := by
  unfold countWords
  rw [if_pos (trimL_all_ws _ h)]

/-- C10: the word counter of the Chunker gives every line at least one
word; a line whose text (after removing bracketed timestamp tokens) is
all whitespace — in particular an empty or blank line — counts exactly
one word; and consequently chunking the empty string yields exactly one
chunk, the empty string. -/
theorem c10_word_counter_min_one :
    (∀ line, 1 ≤ countWords line) ∧
    (∀ line, (∀ c ∈ removeTs line, isWs c = true) → countWords line = 1) ∧
    (∀ limit : Int, splitIntoChunks [] limit = [[]]) := by
  refine ⟨countWords_pos, countWords_all_ws, fun limit => ?_⟩
  simp [splitIntoChunks, chunkLinesOf, splitLines, chunksGo, joinLines]

/-- Witness for C10 at a line holding only a timestamp token and a
space. -/
theorem c10_witness :
    countWords "[00:00:01.000] ".data = 1 :=
  c10_word_counter_min_one.2.1 _ (by decide)

/-- C5: the resolved `chunkSize` always lies in `[5000, 20000]`; absent
gives 5000, 1 clamps to 5000, 999999 clamps to 20000, in-range values
pass through unchanged. -/
theorem c5_chunk_size_clamp (args : ToolArgs) :
    5000 ≤ (validateConfig args).chunkSize ∧
    (validateConfig args).chunkSize ≤ 20000 ∧
    (args.chunkSize = none → (validateConfig args).chunkSize = 5000) ∧
    (args.chunkSize = some 1 → (validateConfig args).chunkSize = 5000) ∧
    (args.chunkSize = some 999999 → (validateConfig args).chunkSize = 20000) ∧
    (∀ v, args.chunkSize = some v → 5000 ≤ v → v ≤ 20000 →
      (validateConfig args).chunkSize = v) := by
  rcases args with ⟨cs, ci, ch⟩
  cases cs with
  | none =>
    refine ⟨?_, ?_, ?_, ?_, ?_, ?_⟩ <;> simp [validateConfig]
  | some v =>
    refine ⟨?_, ?_, ?_, ?_, ?_, ?_⟩ <;> simp [validateConfig] <;> omega

/-- Witness for C5 at an in-range requested value. -/
theorem c5_witness :
    (validateConfig ⟨some 7000, none, none⟩).chunkSize = 7000 :=
  (c5_chunk_size_clamp ⟨some 7000, none, none⟩).2.2.2.2.2 7000 rfl
    (by decide) (by decide)

/-- C9: the resolved `numChunks` is `min(requested, 5)` when supplied
and 1 when absent; only the upper bound is enforced, so 0 or negative
requests pass through. -/
theorem c9_num_chunks_cap (args : ToolArgs) :
    (args.chunks = none → (validateConfig args).numChunks = 1) ∧
    (∀ v, args.chunks = some v → (validateConfig args).numChunks = min v 5) ∧
    (∀ v, args.chunks = some v → v ≤ 5 →
      (validateConfig args).numChunks = v) := by
  rcases args with ⟨cs, ci, ch⟩
  cases ch with
  | none =>
    refine ⟨?_, ?_, ?_⟩ <;> simp [validateConfig]
  | some v =>
    refine ⟨?_, fun w hw => ?_, fun w hw hle => ?_⟩ <;>
      simp_all [validateConfig]

/-- Witness for C9: a negative request passes through the cap. -/
theorem c9_witness :
    (validateConfig ⟨none, none, some (-3)⟩).numChunks = -3 :=
  (c9_num_chunks_cap ⟨none, none, some (-3)⟩).2.2 (-3) rfl (by decide)

/-- Counterexample to C6 as stated: `splitIntoChunks` applied to the
empty string does not return the empty list (it returns one empty
chunk, because splitting the empty string yields one empty line). -/
theorem c6_empty_input_cex : ¬ splitIntoChunks [] 5000 = [] := by decide

/-- Counterexample to C7 as stated: cleaning is not idempotent.  On
this input the single-pass removal of `align:start position:0%` splices
the surrounding text into a fresh occurrence of the token, which only a
second clean removes. -/
theorem c7_idempotence_cex :
    cleanText (cleanText "align:start posialign:start position:0%tion:0%".data) ≠
      cleanText "align:start posialign:start position:0%tion:0%".data := by
  decide

/-- Counterexample to C2 as stated: with the spec's word count (strip
only a leading timestamp token), the single chunk produced here totals
6 > 5 words yet has two lines, and its first line alone does not exceed
the limit.  The code counts words after removing timestamp tokens
anywhere in the line, so it closes chunks by a different measure. -/
theorem c2_leading_strip_cex :
    ¬ (∀ c ∈ chunkLinesOf (processSubtitles "a [00:00:00.000] b\nc".data) 5,
        specChunkWords c ≤ 5 ∨ (c.length = 1 ∧ 5 < specLineWords c.headI)) := by
  decide

theorem chunksGo_flatten (limit : Int) :
    ∀ (ls cur : List (List Char)) (cnt : Nat),
      (chunksGo limit cur cnt ls).flatten = cur ++ ls := by
  intro ls
  induction ls with
  | nil =>
    intro cur cnt
    unfold chunksGo
    split
    · simp [*]
    · simp
  | cons line ls ih =>
    intro cur cnt
    unfold chunksGo
    split
    · simp [ih]
    · simp [ih]

theorem chunksGo_ne_nil (limit : Int) :
    ∀ (ls cur : List (List Char)) (cnt : Nat) (c : List (List Char)),
      c ∈ chunksGo limit cur cnt ls → c ≠ [] := by
  intro ls
  induction ls with
  | nil =>
    intro cur cnt c hc
    unfold chunksGo at hc
    split at hc
    · simp at hc
    · rename_i h
      simp only [List.mem_singleton] at hc
      exact hc ▸ h
  | cons line ls ih =>
    intro cur cnt c hc
    unfold chunksGo at hc
    split at hc
    · rename_i hcond
      rcases List.mem_cons.mp hc with rfl | hc
      · exact hcond.2
      · exact ih _ _ c hc
    · exact ih _ _ c hc

theorem chunksGo_cons (limit : Int) :
    ∀ (ls cur : List (List Char)) (cnt : Nat), cur ≠ [] →
      ∃ ext rest, chunksGo limit cur cnt ls = (cur ++ ext) :: rest := by
  intro ls
  induction ls with
  | nil =>
    intro cur cnt h
    exact ⟨[], [], by unfold chunksGo; rw [if_neg h]; simp⟩
  | cons line ls ih =>
    intro cur cnt h
    unfold chunksGo
    split
    · exact ⟨[], chunksGo limit [line] (countWords line) ls, by simp⟩
    · obtain ⟨ext, rest, heq⟩ := ih (cur ++ [line]) (cnt + countWords line) (by simp)
      exact ⟨line :: ext, rest, by rw [heq, List.append_assoc]; rfl⟩

theorem joinLines_append (a b : List (List Char)) (ha : a ≠ []) (hb : b ≠ []) :
    joinLines (a ++ b) = joinLines a ++ '\n' :: joinLines b := by
  induction a with
  | nil => exact absurd rfl ha
  | cons x xs ih =>
    cases xs with
    | nil =>
      cases b with
      | nil => exact absurd rfl hb
      | cons y ys => simp [joinLines_cons_cons, joinLines]
    | cons z zs =>
      rw [List.cons_append, List.cons_append, joinLines_cons_cons,
        ← List.cons_append, ih (by simp), joinLines_cons_cons]
      simp

theorem joinLines_map (cs : List (List (List Char))) (h : ∀ c ∈ cs, c ≠ []) :
    joinLines (cs.map joinLines) = joinLines cs.flatten := by
  induction cs with
  | nil => rfl
  | cons c cs' ih =>
    cases cs' with
    | nil => simp [joinLines, List.flatten]
    | cons d ds =>
      have hc : c ≠ [] := h c (by simp)
      have hflat : (d :: ds).flatten ≠ [] := by
        rw [List.flatten_cons]
        intro hj
        exact (h d (by simp)) (List.append_eq_nil.mp hj).1
      rw [List.map_cons, List.map_cons, joinLines_cons_cons, ← List.map_cons,
        ih (fun x hx => h x (List.mem_cons_of_mem _ hx))]
      conv_rhs => rw [List.flatten_cons]
      rw [joinLines_append c ((d :: ds).flatten) hc hflat]

/-- C1: joining all chunks with newline reproduces the chunked text
exactly, and the concatenation of all chunks' line lists is exactly the
input's line list: no line is lost, duplicated, reordered, or split
across a chunk boundary. -/
theorem c1_chunks_reconstruct (text : List Char) (limit : Int)
    (_h : 0 < limit) :
    joinLines (splitIntoChunks text limit) = text ∧
    (chunkLinesOf text limit).flatten = splitLines text := by
  constructor
  · unfold splitIntoChunks chunkLinesOf
    rw [joinLines_map _ (fun c hc => chunksGo_ne_nil _ _ _ _ c hc),
      chunksGo_flatten]
    simpa using joinLines_splitLines text
  · unfold chunkLinesOf
    rw [chunksGo_flatten]
    rfl

/-- Witness for C1 at a two-line input and word limit 1. -/
theorem c1_witness :
    joinLines (splitIntoChunks "a\nb".data 1) = "a\nb".data :=
  (c1_chunks_reconstruct "a\nb".data 1 (by decide)).1

/-- Amendment of C6: every chunk is built from at least one line, and on
the empty string the Chunker produces exactly one chunk, the empty
string (the empty input's single empty line), rather than zero chunks. -/
theorem c6_no_empty_chunks :
    (∀ (text : List Char) (limit : Int),
      ∀ c ∈ chunkLinesOf text limit, c ≠ []) ∧
    (∀ limit : Int, splitIntoChunks [] limit = [[]]) := by
  constructor
  · intro text limit c hc
    exact chunksGo_ne_nil limit _ _ _ c hc
  · intro limit
    simp [splitIntoChunks, chunkLinesOf, splitLines, chunksGo, joinLines]

/-- Witness for C6's amendment at a concrete chunk list. -/
theorem c6_witness : ["a".data] ≠ ([] : List (List Char)) :=
  c6_no_empty_chunks.1 "a\nb".data 1 ["a".data] (by decide)

theorem chunkWords_append (cur : List (List Char)) (line : List Char) :
    chunkWords (cur ++ [line]) = chunkWords cur + countWords line := by
  simp [chunkWords]

theorem chunksGo_chain (limit : Int) :
    ∀ (ls cur : List (List Char)) (cnt : Nat), cnt = chunkWords cur →
      List.Chain'
        (fun a b => limit < (chunkWords a : Int) + (countWords b.headI : Int))
        (chunksGo limit cur cnt ls) := by
  intro ls
  induction ls with
  | nil =>
    intro cur cnt h
    unfold chunksGo
    split
    · exact List.chain'_nil
    · exact List.chain'_singleton _
  | cons line ls ih =>
    intro cur cnt h
    unfold chunksGo
    split
    · rename_i hcond
      obtain ⟨ext, rest, heq⟩ :=
        chunksGo_cons limit ls [line] (countWords line) (by simp)
      rw [heq, List.chain'_cons]
      constructor
      · simp only [List.cons_append, List.headI]
        have := hcond.1
        rw [h] at this
        simpa [chunkWords] using this
      · rw [← heq]
        exact ih [line] (countWords line) (by simp [chunkWords])
    · exact ih (cur ++ [line]) (cnt + countWords line)
        (by rw [chunkWords_append, h])

theorem chunksGo_bound (limit : Int) :
    ∀ (ls cur : List (List Char)) (cnt : Nat), cnt = chunkWords cur →
      ((chunkWords cur : Int) ≤ limit ∨
        ∃ l, cur = [l] ∧ limit < (countWords l : Int)) →
      ∀ c ∈ chunksGo limit cur cnt ls,
        (chunkWords c : Int) ≤ limit ∨
          ∃ l, c = [l] ∧ limit < (countWords l : Int) := by
  intro ls
  induction ls with
  | nil =>
    intro cur cnt hcnt hinv c hc
    unfold chunksGo at hc
    split at hc
    · simp at hc
    · simp only [List.mem_singleton] at hc
      exact hc ▸ hinv
  | cons line ls ih =>
    intro cur cnt hcnt hinv c hc
    unfold chunksGo at hc
    split at hc
    · rename_i hcond
      rcases List.mem_cons.mp hc with rfl | hc
      · exact hinv
      · refine ih [line] (countWords line) (by simp [chunkWords]) ?_ c hc
        rcases le_or_lt ((countWords line : Int)) limit with hw | hw
        · left; simpa [chunkWords] using hw
        · right; exact ⟨line, rfl, hw⟩
    · rename_i hcond
      refine ih (cur ++ [line]) (cnt + countWords line)
        (by rw [chunkWords_append, hcnt]) ?_ c hc
      by_cases hcur : cur = []
      · subst hcur
        simp only [chunkWords, List.map_nil, List.sum_nil] at hcnt
        subst hcnt
        rcases le_or_lt ((countWords line : Int)) limit with hw | hw
        · left; rw [List.nil_append]; simpa [chunkWords] using hw
        · right; exact ⟨line, by rw [List.nil_append], hw⟩
      · have hle : (cnt : Int) + (countWords line : Int) ≤ limit := by
          by_contra hx
          push_neg at hx
          exact hcond ⟨hx, hcur⟩
        left
        rw [chunkWords_append, ← hcnt]
        omega

/-- Amendment of C2: the chunk boundary property holds with the code's
word count — every bracketed `[HH:MM:SS.mmm]` token anywhere in the
line is removed (not only a leading one), the remainder is trimmed and
split on whitespace runs, an empty remainder counting as one word.
Every chunk's total is at most the limit except a chunk made of a
single line whose own count exceeds the limit, and each chunk boundary
is forced: the previous chunk's total plus the next chunk's first
line's count exceeds the limit. -/
theorem c2_chunk_boundary (text : List Char) (limit : Int) (h : 0 < limit) :
    (∀ c ∈ chunkLinesOf text limit,
      (chunkWords c : Int) ≤ limit ∨
        ∃ l, c = [l] ∧ limit < (countWords l : Int)) ∧
    List.Chain'
      (fun a b => limit < (chunkWords a : Int) + (countWords b.headI : Int))
      (chunkLinesOf text limit) := by
  constructor
  · intro c hc
    refine chunksGo_bound limit (splitLines text) [] 0 (by simp [chunkWords])
      ?_ c hc
    left
    simp only [chunkWords, List.map_nil, List.sum_nil, Nat.cast_zero]
    omega
  · exact chunksGo_chain limit (splitLines text) [] 0 (by simp [chunkWords])

/-- Witness for C2's amendment: at limit 1 the two one-word lines are
split into two chunks and the boundary is forced. -/
theorem c2_witness :
    List.Chain'
      (fun a b => (1 : Int) < (chunkWords a : Int) + (countWords b.headI : Int))
      (chunkLinesOf "a\nb".data 1) :=
  (c2_chunk_boundary "a\nb".data 1 (by decide)).2

theorem psGo_chain (ls : List (List Char)) :
    ∀ ts prev : List Char,
      List.Chain' (fun a b => a.text ≠ b.text) (psGo ts prev ls) ∧
      (∀ x ∈ (psGo ts prev ls).head?, x.text ≠ prev) := by
  induction ls with
  | nil =>
    intro ts prev
    exact ⟨List.chain'_nil, by simp [psGo]⟩
  | cons line ls ih =>
    intro ts prev
    unfold psGo
    split
    · exact ih ts prev
    · split
      · exact ih _ prev
      · split
        · rename_i hemit
          obtain ⟨hchain, hhead⟩ := ih ts (cleanText (trimL line))
          refine ⟨?_, ?_⟩
          · rw [List.chain'_cons']
            exact ⟨fun b hb => (hhead b hb).symm, hchain⟩
          · intro x hx
            simp only [List.head?_cons, Option.mem_def, Option.some.injEq] at hx
            rw [← hx]
            exact hemit.2
        · exact ih ts prev

/-- C3: in any transcript produced by the Transcript Builder no two
consecutive emitted lines have the same cleaned text; and because the
comparison is only against the immediately preceding emission, the same
phrase re-emitted at a later, non-adjacent position is preserved, as on
the input `a`, `b`, `a`. -/
theorem c3_no_adjacent_duplicates :
    (∀ content : List Char,
      List.Chain' (fun a b => a.text ≠ b.text) (transcriptLines content)) ∧
    processSubtitles "a\nb\na".data = "[] a\n[] b\n[] a".data := by
  constructor
  · intro content
    exact (psGo_chain (splitLines content) [] []).1
  · decide

theorem splitLines_no_newline (l : List Char) (h : '\n' ∉ l) :
    splitLines l = [l] := by
  induction l with
  | nil => rfl
  | cons c cs ih =>
    have hc : c ≠ '\n' := fun he => h (by simp [he])
    have hcs : splitLines cs = [cs] := ih fun hm => h (by simp [hm])
    simp [splitLines, hc, hcs]

theorem isTsLine_nil : isTsLine [] = false := rfl

theorem psGo_cons_ts (ts prev m : List Char) (ls : List (List Char))
    (hne : trimL m ≠ []) (hm : isTsLine (trimL m) = true) :
    psGo ts prev (m :: ls) = psGo (beforeArrow (trimL m)) prev ls := by
  conv_lhs => rw [psGo]
  rw [if_neg hne, if_pos hm]

theorem psGo_ts_run (ms : List (List Char)) :
    ∀ (ts prev : List Char) (rest : List (List Char)),
      (∀ m ∈ ms, isTsLine (trimL m) = true) →
      psGo ts prev (ms ++ rest) =
        psGo (ms.foldl (fun _ m => beforeArrow (trimL m)) ts) prev rest := by
  induction ms with
  | nil => intro ts prev rest _; rfl
  | cons m ms ih =>
    intro ts prev rest hall
    have hm : isTsLine (trimL m) = true := hall m (by simp)
    have hne : trimL m ≠ [] := by
      intro h0
      rw [h0, isTsLine_nil] at hm
      cases hm
    rw [List.cons_append, psGo_cons_ts ts prev m (ms ++ rest) hne hm]
    exact ih _ prev rest fun x hx => hall x (by simp [hx])

theorem cleanText_nil : cleanText [] = [] := rfl

/-- C8: a run of consecutive timestamp-marker lines emits nothing and
only updates the current timestamp (to that of the last marker), and a
text line arriving while the current timestamp is still the initial
empty string — in particular any text line before the first marker — is
emitted with the empty timestamp, rendered `[] text`. -/
theorem c8_pre_marker_timestamp :
    (∀ (ms : List (List Char)) (ts prev : List Char)
        (rest : List (List Char)),
      (∀ m ∈ ms, isTsLine (trimL m) = true) →
      psGo ts prev (ms ++ rest) =
        psGo (ms.foldl (fun _ m => beforeArrow (trimL m)) ts) prev rest) ∧
    (∀ l : List Char, '\n' ∉ l → isTsLine (trimL l) = false →
      cleanText (trimL l) ≠ [] →
      processSubtitles l = '[' :: ']' :: ' ' :: cleanText (trimL l)) := by
  constructor
  · exact psGo_ts_run
  · intro l hn hts hc
    have hne : trimL l ≠ [] := by
      intro h0
      rw [h0, cleanText_nil] at hc
      exact hc rfl
    have hts' : ¬ isTsLine (trimL l) = true := by
      rw [hts]
      exact Bool.false_ne_true
    unfold processSubtitles transcriptLines
    rw [splitLines_no_newline l hn, psGo]
    rw [if_neg hne, if_neg hts', if_pos ⟨hc, hc⟩]
    rfl

/-- Witness for C8: two consecutive marker lines only move the current
timestamp to the second marker's start time, and a lone text line is
rendered with the empty timestamp. -/
theorem c8_witness :
    psGo [] []
        (["00:00:01.000 --> 00:00:02.000".data,
          "00:00:03.000 --> 00:00:04.000".data] ++ ["hi".data]) =
      psGo "00:00:03.000".data [] ["hi".data] ∧
    processSubtitles "hello".data = "[] hello".data := by
  constructor
  · exact (c8_pre_marker_timestamp.1
      ["00:00:01.000 --> 00:00:02.000".data,
        "00:00:03.000 --> 00:00:04.000".data] [] [] ["hi".data]
      (by decide)).trans (by decide)
  · exact (c8_pre_marker_timestamp.2 "hello".data (by decide) (by decide)
      (by decide)).trans (by decide)

/-- C4: the Formatter fails exactly when the requested chunk index is
negative or at least the number of chunks; the error reports the valid
range `0` to `totalChunks - 1`; requesting index 5 with exactly 2 chunks
gives precisely `Invalid chunk index. Available chunks: 0-1`. -/
theorem c4_formatter_validation :
    (∀ (config : SubtitleConfig) (chunks : List (List Char)),
      (∃ e, formatResponse config chunks = Except.error e) ↔
        (config.chunkIndex < 0 ∨ (chunks.length : Int) ≤ config.chunkIndex)) ∧
    (∀ (config : SubtitleConfig) (chunks : List (List Char)),
      config.chunkIndex < 0 ∨ (chunks.length : Int) ≤ config.chunkIndex →
      formatResponse config chunks =
        Except.error ("Invalid chunk index. Available chunks: 0-".data ++
          intToChars ((chunks.length : Int) - 1))) ∧
    formatResponse ⟨5000, 5, 1⟩ ["a".data, "b".data] =
      Except.error "Invalid chunk index. Available chunks: 0-1".data := by
  refine ⟨?_, ?_, ?_⟩
  · intro config chunks
    constructor
    · rintro ⟨e, he⟩
      by_contra hx
      unfold formatResponse at he
      rw [if_neg hx] at he
      cases he
    · intro hcond
      exact ⟨_, by unfold formatResponse; rw [if_pos hcond]⟩
  · intro config chunks hcond
    unfold formatResponse
    rw [if_pos hcond]
  · rfl

/-- Witness for C4: a negative index with one chunk errors with the
range `0-0`. -/
theorem c4_witness :
    formatResponse ⟨5000, -1, 1⟩ ["a".data] =
      Except.error ("Invalid chunk index. Available chunks: 0-".data ++
        intToChars (((["a".data] : List (List Char)).length : Int) - 1)) :=
  c4_formatter_validation.2.1 ⟨5000, -1, 1⟩ ["a".data] (by decide)

theorem hasGt_append (a b : List Char) :
    hasGt (a ++ b) = (hasGt a || hasGt b) := by
  induction a with
  | nil => simp [hasGt]
  | cons c cs ih => simp [hasGt, ih, Bool.or_assoc]

theorem hasGt_eq_true_iff (l : List Char) : hasGt l = true ↔ '>' ∈ l := by
  induction l with
  | nil => simp [hasGt]
  | cons c cs ih =>
    simp only [hasGt, Bool.or_eq_true, decide_eq_true_eq, List.mem_cons, ih]
    constructor
    · rintro (h | h)
      · exact Or.inl h.symm
      · exact Or.inr h
    · rintro (h | h)
      · exact Or.inl h.symm
      · exact Or.inr h

theorem hasGt_false_of_subset (l m : List Char) (hsub : ∀ x ∈ m, x ∈ l)
    (h : hasGt l = false) : hasGt m = false := by
  by_contra hx
  rw [Bool.not_eq_false, hasGt_eq_true_iff] at hx
  have := (hasGt_eq_true_iff l).mpr (hsub _ hx)
  rw [h] at this
  cases this

theorem ltInv_cons (c : Char) (cs : List Char) :
    ltInv (c :: cs) =
      ((if c = '<' then headGt cs || !hasGt cs else true) && ltInv cs) := rfl

theorem ltInv_tail (c : Char) (cs : List Char) (h : ltInv (c :: cs) = true) :
    ltInv cs = true := by
  rw [ltInv_cons, Bool.and_eq_true] at h
  exact h.2

theorem ltInv_cons_of_ne (c : Char) (cs : List Char) (hc : c ≠ '<')
    (h : ltInv cs = true) : ltInv (c :: cs) = true := by
  rw [ltInv_cons, if_neg hc, Bool.true_and]
  exact h

theorem ltInv_of_no_gt (l : List Char) (h : hasGt l = false) :
    ltInv l = true := by
  induction l with
  | nil => rfl
  | cons c cs ih =>
    have hcs : hasGt cs = false := by
      have : hasGt (c :: cs) = ((c = '>') || hasGt cs) := by simp [hasGt]
      rw [this, Bool.or_eq_false_iff] at h
      exact h.2
    rw [ltInv_cons, Bool.and_eq_true]
    refine ⟨?_, ih hcs⟩
    split
    · rw [hcs]
      simp
    · rfl

theorem rtGo_no_gt (cs : List Char) :
    ∀ buf : List Char, hasGt cs = false → rtGo buf cs = buf ++ cs := by
  induction cs with
  | nil => intro buf _; simp [rtGo]
  | cons c cs ih =>
    intro buf h
    have hgt : (c = '>') = False ∧ hasGt cs = false := by
      have : hasGt (c :: cs) = ((c = '>') || hasGt cs) := by simp [hasGt]
      rw [this, Bool.or_eq_false_iff] at h
      constructor
      · simp only [eq_iff_iff, iff_false]
        intro hc
        rw [hc] at h
        simp at h
      · exact h.2
    have hcne : c ≠ '>' := by
      intro hc
      exact hgt.1.mp (by rw [hc])
    rw [rtGo]
    by_cases hbuf : buf = []
    · rw [if_pos hbuf, hbuf]
      by_cases hlt : c = '<'
      · rw [if_pos hlt, ih ['<'] hgt.2, hlt]
        rfl
      · rw [if_neg hlt, ih [] hgt.2]
        rfl
    · rw [if_neg hbuf, if_neg hcne, ih (buf ++ [c]) hgt.2, List.append_assoc]
      rfl

theorem rtGo_ltInv (cs : List Char) :
    ∀ buf : List Char,
      (buf = [] ∨ ∃ bs, buf = '<' :: bs ∧ hasGt bs = false) →
      ltInv (rtGo buf cs) = true := by
  induction cs with
  | nil =>
    intro buf hbuf
    rcases hbuf with rfl | ⟨bs, rfl, hbs⟩
    · rfl
    · rw [rtGo]
      refine ltInv_of_no_gt _ ?_
      have : hasGt ('<' :: bs) = ((('<' : Char) = '>') || hasGt bs) := by
        simp [hasGt]
      rw [this, hbs]
      simp
  | cons c cs ih =>
    intro buf hbuf
    rw [rtGo]
    rcases hbuf with rfl | ⟨bs, rfl, hbs⟩
    · rw [if_pos rfl]
      by_cases hlt : c = '<'
      · rw [if_pos hlt]
        exact ih ['<'] (Or.inr ⟨[], rfl, rfl⟩)
      · rw [if_neg hlt]
        exact ltInv_cons_of_ne c _ hlt (ih [] (Or.inl rfl))
    · rw [if_neg (by simp)]
      by_cases hgt : c = '>'
      · rw [if_pos hgt]
        by_cases hlen : 2 ≤ ('<' :: bs).length
        · rw [if_pos hlen]
          exact ih [] (Or.inl rfl)
        · rw [if_neg hlen]
          have hbs0 : bs = [] := by
            cases bs with
            | nil => rfl
            | cons b bs' => exact absurd (by simp) hlen
          subst hbs0
          subst hgt
          rw [List.cons_append, List.nil_append]
          rw [ltInv_cons, Bool.and_eq_true]
          constructor
          · rw [if_pos rfl]
            simp [headGt]
          · exact ltInv_cons_of_ne _ _ (by decide) (ih [] (Or.inl rfl))
      · rw [if_neg hgt]
        refine ih ('<' :: bs ++ [c]) (Or.inr ⟨bs ++ [c], rfl, ?_⟩)
        rw [hasGt_append, hbs]
        have : hasGt [c] = ((c = '>') || false) := by simp [hasGt]
        rw [this]
        simp [hgt]

theorem removeTags_ltInv (l : List Char) : ltInv (removeTags l) = true :=
  rtGo_ltInv l [] (Or.inl rfl)

theorem rtGo_id_of_ltInv (l : List Char) (h : ltInv l = true) :
    rtGo [] l = l := by
  induction l with
  | nil => rfl
  | cons c cs ih =>
    rw [ltInv_cons, Bool.and_eq_true] at h
    obtain ⟨hguard, htail⟩ := h
    rw [rtGo, if_pos rfl]
    by_cases hlt : c = '<'
    · subst hlt
      rw [if_pos rfl]
      rw [if_pos rfl, Bool.or_eq_true] at hguard
      rcases hguard with hg | hg
      · cases cs with
        | nil => cases hg
        | cons d ds =>
          have hd : d = '>' := by simpa [headGt] using hg
          subst hd
          have h1 : rtGo [] ('>' :: ds) = '>' :: ds := ih htail
          have h2 : rtGo [] ('>' :: ds) = '>' :: rtGo [] ds := by
            rw [rtGo, if_pos rfl, if_neg (by decide)]
          have h3 : rtGo [] ds = ds := by
            rw [h2] at h1
            injection h1 with _ h3
          rw [rtGo, if_neg (by decide), if_pos rfl, if_neg (by decide), h3]
          rfl
      · rw [Bool.not_eq_true'] at hg
        rw [rtGo_no_gt cs ['<'] hg]
        rfl
    · rw [if_neg hlt, ih htail]

theorem ltInv_append_right (a b : List Char) (h : ltInv (a ++ b) = true) :
    ltInv b = true := by
  induction a with
  | nil => exact h
  | cons c cs ih => exact ih (ltInv_tail _ _ h)

theorem ltInv_append_left (a b : List Char) (h : ltInv (a ++ b) = true) :
    ltInv a = true := by
  induction a with
  | nil => rfl
  | cons c a' ih =>
    rw [List.cons_append, ltInv_cons, Bool.and_eq_true] at h
    obtain ⟨hguard, htail⟩ := h
    rw [ltInv_cons, Bool.and_eq_true]
    refine ⟨?_, ih htail⟩
    by_cases hlt : c = '<'
    · rw [if_pos hlt] at hguard ⊢
      rw [Bool.or_eq_true] at hguard ⊢
      cases a' with
      | nil => right; rfl
      | cons d ds =>
        rcases hguard with hg | hg
        · left; exact hg
        · right
          rw [Bool.not_eq_true', hasGt_append, Bool.or_eq_false_iff] at hg
          rw [Bool.not_eq_true']
          exact hg.1
    · rw [if_neg hlt]

theorem ltInv_dropWhile (p : Char → Bool) (l : List Char)
    (h : ltInv l = true) : ltInv (l.dropWhile p) = true := by
  induction l with
  | nil => exact h
  | cons c cs ih =>
    rw [List.dropWhile_cons]
    split
    · exact ih (ltInv_tail _ _ h)
    · exact h

theorem ltInv_trimL (l : List Char) (h : ltInv l = true) :
    ltInv (trimL l) = true := by
  unfold trimL
  obtain ⟨r, hr, -⟩ := trimRight_decomp (trimLeft l)
  refine ltInv_append_left _ r ?_
  rw [← hr]
  unfold trimLeft
  exact ltInv_dropWhile isWs l h

theorem raGo_zero (l : List Char) : raGo 0 l = l := by cases l <;> rfl

theorem strAt_align_head (c : Char) (cs : List Char) (h : c ≠ 'a') :
    strAt alignTok (c :: cs) = none := by
  rw [alignTok, strAt, if_neg h]

theorem raGo_mem (f : Nat) : ∀ (l : List Char) (x : Char),
    x ∈ raGo f l → x ∈ l := by
  induction f with
  | zero =>
    intro l x h
    rwa [raGo_zero] at h
  | succ f ih =>
    intro l x h
    cases l with
    | nil => simp [raGo] at h
    | cons c cs =>
      rcases hs : strAt alignTok (c :: cs) with - | rest
      · simp only [raGo, hs] at h
        rcases List.mem_cons.mp h with rfl | h'
        · exact List.mem_cons_self _ _
        · exact List.mem_cons_of_mem _ (ih cs x h')
      · simp only [raGo, hs] at h
        exact (strAt_suffix _ _ _ hs).mem (ih rest x h)

theorem raGo_gt_cons (f : Nat) (ds : List Char) :
    ∃ g, raGo f ('>' :: ds) = '>' :: raGo g ds := by
  cases f with
  | zero => exact ⟨0, by rw [raGo_zero, raGo_zero]⟩
  | succ g =>
    exact ⟨g, by simp only [raGo, strAt_align_head '>' ds (by decide)]⟩

theorem raGo_ltInv (f : Nat) : ∀ l, ltInv l = true →
    ltInv (raGo f l) = true := by
  induction f with
  | zero =>
    intro l h
    rwa [raGo_zero]
  | succ f ih =>
    intro l h
    cases l with
    | nil => rfl
    | cons c cs =>
      rcases hs : strAt alignTok (c :: cs) with - | rest
      · simp only [raGo, hs]
        rw [ltInv_cons, Bool.and_eq_true] at h
        obtain ⟨hguard, htail⟩ := h
        by_cases hlt : c = '<'
        · subst hlt
          rw [if_pos rfl, Bool.or_eq_true] at hguard
          rw [ltInv_cons, Bool.and_eq_true]
          refine ⟨?_, ih cs htail⟩
          rw [if_pos rfl, Bool.or_eq_true]
          rcases hguard with hg | hg
          · cases cs with
            | nil => cases hg
            | cons d ds =>
              have hd : d = '>' := by simpa [headGt] using hg
              subst hd
              obtain ⟨g, hgeq⟩ := raGo_gt_cons f ds
              left
              rw [hgeq]
              rfl
          · right
            rw [Bool.not_eq_true'] at hg ⊢
            exact hasGt_false_of_subset cs _ (fun x hx => raGo_mem f cs x hx) hg
        · rw [if_neg hlt] at hguard
          exact ltInv_cons_of_ne c _ hlt (ih cs htail)
      · simp only [raGo, hs]
        obtain ⟨t, ht⟩ := strAt_suffix _ _ _ hs
        exact ih rest (ltInv_append_right t rest (by rw [ht]; exact h))

theorem raGo_id_of_no_tok (f : Nat) : ∀ l, occursTok l = false →
    raGo f l = l := by
  induction f with
  | zero => intro l _; exact raGo_zero l
  | succ f ih =>
    intro l h
    cases l with
    | nil => rfl
    | cons c cs =>
      simp only [occursTok, Bool.or_eq_false_iff] at h
      obtain ⟨h1, h2⟩ := h
      have hs : strAt alignTok (c :: cs) = none := by
        rcases hx : strAt alignTok (c :: cs) with - | r
        · rfl
        · rw [hx] at h1
          simp at h1
      simp only [raGo, hs]
      rw [ih cs h2]

theorem cwGo_mem (l : List Char) : ∀ (b : Bool) (x : Char),
    x ∈ cwGo b l → x ∈ l ∨ x = ' ' := by
  induction l with
  | nil =>
    intro b x h
    simp [cwGo] at h
  | cons c cs ih =>
    intro b x h
    by_cases hws : isWs c = true
    · cases b with
      | true =>
        rw [cwGo, if_pos hws, if_pos rfl] at h
        rcases ih true x h with h' | h'
        · exact Or.inl (List.mem_cons_of_mem _ h')
        · exact Or.inr h'
      | false =>
        rw [cwGo, if_pos hws, if_neg (by simp)] at h
        rcases List.mem_cons.mp h with rfl | h'
        · exact Or.inr rfl
        · rcases ih true x h' with h'' | h''
          · exact Or.inl (List.mem_cons_of_mem _ h'')
          · exact Or.inr h''
    · rw [cwGo, if_neg hws] at h
      rcases List.mem_cons.mp h with rfl | h'
      · exact Or.inl (List.mem_cons_self _ _)
      · rcases ih false x h' with h'' | h''
        · exact Or.inl (List.mem_cons_of_mem _ h'')
        · exact Or.inr h''

theorem cwGo_no_gt (cs : List Char) (b : Bool) (h : hasGt cs = false) :
    hasGt (cwGo b cs) = false := by
  by_contra hx
  rw [Bool.not_eq_false, hasGt_eq_true_iff] at hx
  rcases cwGo_mem cs b '>' hx with h' | h'
  · have := (hasGt_eq_true_iff cs).mpr h'
    rw [h] at this
    cases this
  · exact absurd h' (by decide)

theorem cwGo_ltInv (l : List Char) : ∀ b, ltInv l = true →
    ltInv (cwGo b l) = true := by
  induction l with
  | nil => intro b _; rfl
  | cons c cs ih =>
    intro b h
    rw [ltInv_cons, Bool.and_eq_true] at h
    obtain ⟨hguard, htail⟩ := h
    by_cases hws : isWs c = true
    · cases b with
      | true =>
        rw [cwGo, if_pos hws, if_pos rfl]
        exact ih true htail
      | false =>
        rw [cwGo, if_pos hws, if_neg (by simp)]
        exact ltInv_cons_of_ne ' ' _ (by decide) (ih true htail)
    · rw [cwGo, if_neg hws]
      by_cases hlt : c = '<'
      · subst hlt
        rw [if_pos rfl, Bool.or_eq_true] at hguard
        rw [ltInv_cons, Bool.and_eq_true]
        refine ⟨?_, ih false htail⟩
        rw [if_pos rfl, Bool.or_eq_true]
        rcases hguard with hg | hg
        · cases cs with
          | nil => cases hg
          | cons d ds =>
            have hd : d = '>' := by simpa [headGt] using hg
            subst hd
            left
            rw [cwGo, if_neg (by decide)]
            rfl
        · right
          rw [Bool.not_eq_true'] at hg ⊢
          exact cwGo_no_gt cs false hg
      · exact ltInv_cons_of_ne c _ hlt (ih false htail)

theorem cleanText_ltInv (x : List Char) : ltInv (cleanText x) = true := by
  unfold cleanText collapseWs removeAlign
  exact ltInv_trimL _ (cwGo_ltInv _ false (raGo_ltInv _ _ (removeTags_ltInv x)))

theorem cwGo_true_head (cs : List Char) :
    cwGo true cs = [] ∨ headNonWs (cwGo true cs) = true := by
  induction cs with
  | nil => left; rfl
  | cons d ds ih =>
    by_cases hws : isWs d = true
    · rw [cwGo, if_pos hws, if_pos rfl]
      exact ih
    · right
      have hws' : isWs d = false := by simpa using hws
      rw [cwGo, if_neg hws]
      simp [headNonWs, hws']

theorem cwGo_wsOkT (l : List Char) : ∀ b, wsOkT (cwGo b l) = true := by
  induction l with
  | nil => intro b; rfl
  | cons c cs ih =>
    intro b
    by_cases hws : isWs c = true
    · cases b with
      | true =>
        rw [cwGo, if_pos hws, if_pos rfl]
        exact ih true
      | false =>
        rw [cwGo, if_pos hws, if_neg (by simp)]
        simp only [wsOkT, Bool.and_eq_true]
        refine ⟨?_, ih true⟩
        rw [if_pos (by decide), Bool.and_eq_true]
        refine ⟨by decide, ?_⟩
        rw [Bool.or_eq_true]
        rcases cwGo_true_head cs with h | h
        · right
          rw [h]
          rfl
        · left
          exact h
    · rw [cwGo, if_neg hws]
      simp only [wsOkT, Bool.and_eq_true]
      refine ⟨?_, ih false⟩
      rw [if_neg hws]

theorem wsOkT_tail (c : Char) (cs : List Char) (h : wsOkT (c :: cs) = true) :
    wsOkT cs = true := by
  simp only [wsOkT, Bool.and_eq_true] at h
  exact h.2

theorem wsOkT_dropWhile (p : Char → Bool) (l : List Char)
    (h : wsOkT l = true) : wsOkT (l.dropWhile p) = true := by
  induction l with
  | nil => exact h
  | cons c cs ih =>
    rw [List.dropWhile_cons]
    split
    · exact ih (wsOkT_tail _ _ h)
    · exact h

theorem headI_append_ne (a b : List Char) (ha : a ≠ []) :
    (a ++ b).headI = a.headI := by
  cases a with
  | nil => exact absurd rfl ha
  | cons x xs => rfl

theorem wsNorm_of_append (a : List Char) :
    ∀ r : List Char, wsOkT (a ++ r) = true → (∀ c ∈ r, isWs c = true) →
      (a = [] ∨ isWs (a.reverse.headI) = false) → wsNorm a = true := by
  induction a with
  | nil => intro r _ _ _; rfl
  | cons c a' ih =>
    intro r hok hr hlast
    have hlast' : isWs ((c :: a').reverse.headI) = false := by
      rcases hlast with h | h
      · simp at h
      · exact h
    rw [List.cons_append] at hok
    simp only [wsOkT, Bool.and_eq_true] at hok
    obtain ⟨hguard, hok'⟩ := hok
    simp only [wsNorm, Bool.and_eq_true]
    constructor
    · by_cases hws : isWs c = true
      · rw [if_pos hws] at hguard ⊢
        rw [Bool.and_eq_true] at hguard ⊢
        refine ⟨hguard.1, ?_⟩
        cases a' with
        | nil =>
          exfalso
          have hIc : (c :: ([] : List Char)).reverse.headI = c := rfl
          rw [hIc, hws] at hlast'
          cases hlast'
        | cons d ds =>
          have h2 := hguard.2
          rw [Bool.or_eq_true] at h2
          rcases h2 with h2 | h2
          · exact h2
          · rw [List.cons_append] at h2
            simp [List.isEmpty] at h2
      · rw [if_neg hws]
    · refine ih r hok' hr ?_
      cases a' with
      | nil => exact Or.inl rfl
      | cons d ds =>
        right
        have hrev : (c :: d :: ds).reverse.headI = (d :: ds).reverse.headI := by
          rw [List.reverse_cons, headI_append_ne _ _ (by simp)]
        rw [hrev] at hlast'
        exact hlast'

theorem cleanText_wsNorm (x : List Char) : wsNorm (cleanText x) = true := by
  unfold cleanText trimL
  obtain ⟨r, hr, hrws⟩ :=
    trimRight_decomp (trimLeft (collapseWs (removeAlign (removeTags x))))
  refine wsNorm_of_append _ r ?_ hrws ?_
  · rw [← hr]
    unfold trimLeft collapseWs
    exact wsOkT_dropWhile isWs _ (cwGo_wsOkT _ false)
  · exact trimRight_last _

theorem cwGo_id_of_wsNorm (l : List Char) (h : wsNorm l = true) :
    cwGo false l = l ∧ (headNonWs l = true → cwGo true l = l) := by
  induction l with
  | nil => exact ⟨rfl, fun _ => rfl⟩
  | cons c cs ih =>
    simp only [wsNorm, Bool.and_eq_true] at h
    obtain ⟨hguard, htail⟩ := h
    obtain ⟨ih1, ih2⟩ := ih htail
    by_cases hws : isWs c = true
    · rw [if_pos hws, Bool.and_eq_true] at hguard
      obtain ⟨hsp, hhead⟩ := hguard
      have hsp' : c = ' ' := by simpa using hsp
      constructor
      · rw [cwGo, if_pos hws, if_neg (by simp), ih2 hhead, hsp']
      · intro hn
        exfalso
        have hIc : headNonWs (c :: cs) = !isWs c := rfl
        rw [hIc, hws] at hn
        cases hn
    · constructor
      · rw [cwGo, if_neg hws, ih1]
      · intro _
        rw [cwGo, if_neg hws, ih1]

theorem dropWhile_id_of_head (p : Char → Bool) (l : List Char)
    (h : l = [] ∨ p l.headI = false) : l.dropWhile p = l := by
  cases l with
  | nil => rfl
  | cons c cs =>
    rcases h with h | h
    · simp at h
    · simp only [List.headI] at h
      rw [List.dropWhile_cons, if_neg (by rw [h]; simp)]

theorem trimRight_id (l : List Char)
    (h : l = [] ∨ isWs (l.reverse.headI) = false) : trimRight l = l := by
  unfold trimRight
  rw [dropWhile_id_of_head isWs l.reverse ?_, List.reverse_reverse]
  rcases h with h | h
  · left
    simp [h]
  · right
    exact h

theorem trimL_id (l : List Char)
    (hhead : l = [] ∨ isWs l.headI = false)
    (hlast : l = [] ∨ isWs (l.reverse.headI) = false) : trimL l = l := by
  unfold trimL trimLeft
  rw [dropWhile_id_of_head isWs l hhead]
  exact trimRight_id l hlast

/-- Amendment of C7: cleaning is idempotent on every input whose cleaned
result does not contain the literal token `align:start position:0%`.
Unconditional idempotence fails because a single left-to-right removal
pass over the token's occurrences can splice the surrounding text into a
new occurrence of the token, which only the second pass removes; no
other rule of the Cleaner can reintroduce removable material into its
own output. -/
theorem c7_clean_idempotent_cond (x : List Char)
    (h : occursTok (cleanText x) = false) :
    cleanText (cleanText x) = cleanText x := by
  have hinv : ltInv (cleanText x) = true := cleanText_ltInv x
  have hnorm : wsNorm (cleanText x) = true := cleanText_wsNorm x
  have hhead : cleanText x = [] ∨ isWs ((cleanText x).headI) = false :=
    trimL_head _
  have hlast : cleanText x = [] ∨ isWs ((cleanText x).reverse.headI) = false :=
    trimL_last _
  conv_lhs => rw [cleanText]
  rw [removeTags, rtGo_id_of_ltInv _ hinv, removeAlign,
    raGo_id_of_no_tok _ _ h, collapseWs, (cwGo_id_of_wsNorm _ hnorm).1]
  exact trimL_id _ hhead hlast

/-- Witness for C7's amendment on an input with tags and a whitespace
run, whose cleaned result is free of the metadata token. -/
theorem c7_witness :
    occursTok (cleanText "a  <i>b</i>".data) = false ∧
    cleanText (cleanText "a  <i>b</i>".data) = cleanText "a  <i>b</i>".data :=
  ⟨by decide, c7_clean_idempotent_cond _ (by decide)⟩

